import Mathlib

/-!
Verification of `cloudflare-workers/goodreads_formatter.py`.

The Python script is embedded shallowly: strings are `List Char`, the
`defaultdict` aggregate is an association list in insertion order, CSV rows
are records of optional fields (`row.get` defaults are applied by accessor
functions), and Python's stable `sorted(..., reverse=True)` is a stable
descending insertion sort.
-/

namespace Goodreads

/-- Convert a Lean string literal to the `List Char` representation used
throughout the development. -/
def chars (s : String) : List Char := s.data

/-- Characters stripped by Python's default `str.strip()` (ASCII whitespace). -/
def isPySpace (c : Char) : Bool :=
  c == ' ' || c == '\t' || c == '\n' || c == '\r' || c == '\x0b' || c == '\x0c'

/-- A double-quote character, as tested by `str.strip('"')`. -/
def isQuote (c : Char) : Bool := c == '"'

/-- An equals-sign character, as tested by `str.strip('=')`. -/
def isEqSign (c : Char) : Bool := c == '='

/-- Python `str.strip(set)`: remove every leading and every trailing character
satisfying `p`. -/
def stripBy (p : Char → Bool) (l : List Char) : List Char :=
  ((l.dropWhile p).reverse.dropWhile p).reverse

/-- Python `str.strip()` with no argument. -/
def pyStrip (l : List Char) : List Char := stripBy isPySpace l

/-- Python `str.split(',')`: split on every comma, keeping empty segments
(so the empty string splits to `[[]]`). -/
def splitComma : List Char → List (List Char)
  | [] => [[]]
  | c :: rest =>
    if c = ',' then [] :: splitComma rest
    else
      match splitComma rest with
      | [] => [[c]]
      | h :: t => (c :: h) :: t

/-- ASCII lower-casing, modelling the case folding `re.IGNORECASE` performs on
the all-ASCII skip patterns. -/
def lowerChar (c : Char) : Char :=
  if 'A' ≤ c ∧ c ≤ 'Z' then Char.ofNat (c.toNat + 32) else c

/-- The generic author names skipped by `clean_author_name`
(the bodies of the anchored regular expressions in `skip_patterns`). -/
def skipList : List (List Char) :=
  [chars "various", chars "unknown", chars "anonymous",
   chars "editor", chars "translator"]

/-- Embeds the `re.match(pattern, name, re.IGNORECASE)` loop of
`clean_author_name`: each pattern is `^word$`, so a name is skipped exactly
when it matches one of the five words case-insensitively as a whole string
(the stripped name cannot end in a newline, so `$` is end-of-string here). -/
def isSkipName (l : List Char) : Bool :=
  skipList.contains (l.map lowerChar)

/-- `clean_author_name` from the source: reject falsy input, then
`strip().strip('"').strip()`, reject the empty result, reject skip-list
matches, otherwise return the cleaned string. -/
def clean_author_name (s : List Char) : Option (List Char) :=
  if s.isEmpty then none
  else
    let t := pyStrip (stripBy isQuote (pyStrip s))
    if t.isEmpty then none
    else if isSkipName t then none
    else some t

/-- One CSV row as produced by `csv.DictReader`; a `none` field models a
column missing from the file (the `row.get` default case). -/
structure Record where
  title : Option (List Char)
  author : Option (List Char)
  additionalAuthors : Option (List Char)
  isbn13 : Option (List Char)
  myRating : Option (List Char)
  exclusiveShelf : Option (List Char)
deriving DecidableEq

/-- `row.get('Title', '').strip()`. -/
def rowTitle (r : Record) : List Char := pyStrip (r.title.getD [])

/-- `row.get('Author', '')`, before `clean_author_name` is applied. -/
def rowAuthorRaw (r : Record) : List Char := r.author.getD []

/-- `row.get('Additional Authors', '').strip()`. -/
def rowAdditional (r : Record) : List Char := pyStrip (r.additionalAuthors.getD [])

/-- `row.get('ISBN13', '').strip().strip('"').strip('=')` — whitespace first,
then all surrounding quotes, then all surrounding equals signs, in that order. -/
def rowIsbn (r : Record) : List Char :=
  stripBy isEqSign (stripBy isQuote (pyStrip (r.isbn13.getD [])))

/-- `row.get('My Rating', '0')`. -/
def rowRating (r : Record) : List Char := r.myRating.getD (chars "0")

/-- `row.get('Exclusive Shelf', 'unknown')`. -/
def rowShelf (r : Record) : List Char := r.exclusiveShelf.getD (chars "unknown")

/-- One book attribution stored under an author; `role` is `some
"additional_author"` when the attribution came from the additional-authors
field and `none` for a primary-author attribution. -/
structure BookReference where
  title : List Char
  isbn : List Char
  rating : List Char
  shelf : List Char
  role : Option (List Char)
deriving DecidableEq

/-- The per-author accumulator `{"books": [...], "total_books": n}`. -/
structure AuthorEntry where
  books : List BookReference
  total_books : Nat
deriving DecidableEq

/-- The `defaultdict` aggregate, as an association list in insertion order. -/
abbrev Aggregate := List (List Char × AuthorEntry)

/-- Dictionary lookup (first matching key). -/
def lookupA : Aggregate → List Char → Option AuthorEntry
  | [], _ => none
  | (k, e) :: t, a => if k = a then some e else lookupA t a

/-- One attribution: `authors[name]["books"].append(b)` followed by
`authors[name]["total_books"] += 1`, with the `defaultdict` creating a fresh
entry at the end of the dictionary when the key is new. -/
def addBook : Aggregate → List Char → BookReference → Aggregate
  | [], name, b => [(name, ⟨[b], 1⟩)]
  | (k, e) :: t, name, b =>
    if k = name then (k, ⟨e.books ++ [b], e.total_books + 1⟩) :: t
    else (k, e) :: addBook t name b

/-- The `BookReference` literal built inside `extract_authors_from_goodreads`. -/
def mkBook (r : Record) (role : Option (List Char)) : BookReference :=
  ⟨rowTitle r, rowIsbn r, rowRating r, rowShelf r, role⟩

/-- The body of the additional-authors loop: clean each comma-separated piece
and attribute the book (with the `additional_author` role) to each valid one. -/
def addAdditional (r : Record) (acc : Aggregate) (nm : List Char) : Aggregate :=
  match clean_author_name nm with
  | some a => addBook acc a (mkBook r (some (chars "additional_author")))
  | none => acc

/-- Processing of one CSV row: the primary author (if valid) receives a
role-free `BookReference`, then, when the stripped additional-authors field is
non-empty, each valid comma-separated additional author receives one. -/
def processRecord (agg : Aggregate) (r : Record) : Aggregate :=
  let agg1 :=
    match clean_author_name (rowAuthorRaw r) with
    | some a => addBook agg a (mkBook r none)
    | none => agg
  if (rowAdditional r).isEmpty then agg1
  else (splitComma (rowAdditional r)).foldl (addAdditional r) agg1

/-- `extract_authors_from_goodreads`: fold the row-processing step over the
parsed rows, starting from the empty `defaultdict`. -/
def extract_authors_from_goodreads (rows : List Record) : Aggregate :=
  rows.foldl processRecord []

/-- The sequence of valid author attributions one record generates, in
processing order and with multiplicity: the cleaned primary author if valid,
then every valid cleaned additional author. -/
def validNames (r : Record) : List (List Char) :=
  (match clean_author_name (rowAuthorRaw r) with
   | some a => [a]
   | none => []) ++
  (if (rowAdditional r).isEmpty then []
   else (splitComma (rowAdditional r)).filterMap clean_author_name)

/-- The `total_books` counter of one author (0 when absent). -/
def totalOf (agg : Aggregate) (a : List Char) : Nat :=
  (lookupA agg a).elim 0 (fun e => e.total_books)

/-- The number of stored `BookReference`s of one author (0 when absent). -/
def nbooksOf (agg : Aggregate) (a : List Char) : Nat :=
  (lookupA agg a).elim 0 (fun e => e.books.length)

/-- Sum of `total_books` over every entry of the aggregate. -/
def sumTotals (agg : Aggregate) : Nat :=
  (agg.map (fun p => p.2.total_books)).sum

/-- Stable descending insertion by `total_books`: the new pair goes in front
of the first strictly smaller entry, after equal ones. -/
def insDesc (p : List Char × AuthorEntry) : Aggregate → Aggregate
  | [] => [p]
  | q :: t =>
    if q.2.total_books ≤ p.2.total_books then p :: q :: t
    else q :: insDesc p t

/-- `sorted(authors_data.items(), key=lambda x: x[1]["total_books"],
reverse=True)`: a stable sort by `total_books`, most prolific first. -/
def sortByBooksDesc : Aggregate → Aggregate
  | [] => []
  | p :: t => insDesc p (sortByBooksDesc t)

/-- One entry of the detailed view's `authors` array. -/
structure AuthorOut where
  name : List Char
  book_count : Nat
  books : List BookReference
deriving DecidableEq

/-- The `metadata` object of the detailed view. -/
structure Metadata where
  source : List Char
  total_authors : Nat
  total_books : Nat
  export_date : List Char
  format_version : List Char
deriving DecidableEq

/-- The detailed cache-warming document. -/
structure CacheFormat where
  metadata : Metadata
  authors : List AuthorOut
deriving DecidableEq

/-- `create_cache_warming_format`: metadata computed over the sorted pairs,
then one `{name, book_count, books[:10]}` object per author in sorted order. -/
def create_cache_warming_format (authors_data : Aggregate) : CacheFormat :=
  let sorted_authors := sortByBooksDesc authors_data
  { metadata :=
      { source := chars "goodreads_export"
        total_authors := sorted_authors.length
        total_books := (sorted_authors.map (fun p => p.2.total_books)).sum
        export_date := chars "2025-09-27"
        format_version := chars "1.0" }
    authors :=
      sorted_authors.map (fun p => ⟨p.1, p.2.total_books, p.2.books.take 10⟩) }

/-- `create_simple_author_list`: the author names in the same sorted order. -/
def create_simple_author_list (authors_data : Aggregate) : List (List Char) :=
  (sortByBooksDesc authors_data).map (fun p => p.1)

/-- The data rows written by `main`'s CSV loop: `(author, book_count)` pairs
over the same sort. -/
def tabular_rows (authors_data : Aggregate) : List (List Char × Nat) :=
  (sortByBooksDesc authors_data).map (fun p => (p.1, p.2.total_books))

/-! ### Lemmas about `stripBy` (Python `str.strip`) -/

theorem head?_dropWhile (p : Char → Bool) (l : List Char) (c : Char)
    (h : (l.dropWhile p).head? = some c) : p c = false := by
  induction l with
  | nil => simp [List.dropWhile] at h
  | cons a t ih =>
    by_cases hp : p a
    · rw [List.dropWhile_cons, if_pos hp] at h
      exact ih h
    · rw [List.dropWhile_cons, if_neg hp] at h
      simp only [List.head?_cons, Option.some.injEq] at h
      subst h
      exact Bool.eq_false_iff.mpr hp

theorem dropWhile_eq_self (p : Char → Bool) (l : List Char)
    (h : ∀ c, l.head? = some c → p c = false) : l.dropWhile p = l := by
  cases l with
  | nil => rfl
  | cons a t =>
    have ha := h a rfl
    rw [List.dropWhile_cons, if_neg (by simp [ha])]

theorem stripBy_eq_self (p : Char → Bool) (l : List Char)
    (h1 : ∀ c, l.head? = some c → p c = false)
    (h2 : ∀ c, l.getLast? = some c → p c = false) : stripBy p l = l := by
  unfold stripBy
  rw [dropWhile_eq_self p l h1,
    dropWhile_eq_self p l.reverse
      (fun c hc => h2 c (by rwa [List.head?_reverse] at hc)),
    List.reverse_reverse]

theorem getLast?_stripBy (p : Char → Bool) (l : List Char) (c : Char)
    (h : (stripBy p l).getLast? = some c) : p c = false := by
  unfold stripBy at h
  rw [List.getLast?_reverse] at h
  exact head?_dropWhile _ _ _ h

theorem head?_stripBy (p : Char → Bool) (l : List Char) (c : Char)
    (h : (stripBy p l).head? = some c) : p c = false := by
  have h' : ((l.dropWhile p).reverse.dropWhile p).getLast? = some c := by
    unfold stripBy at h
    rwa [List.head?_reverse] at h
  obtain ⟨t, htz⟩ := List.dropWhile_suffix (l := (l.dropWhile p).reverse) p
  have hx : (l.dropWhile p).head? = some c := by
    rw [← List.getLast?_reverse, ← htz, List.getLast?_append, h']
    rfl
  exact head?_dropWhile _ _ _ hx

theorem stripBy_idem (p : Char → Bool) (l : List Char) :
    stripBy p (stripBy p l) = stripBy p l :=
  stripBy_eq_self p _ (head?_stripBy p l) (getLast?_stripBy p l)

theorem stripBy_decomp (p : Char → Bool) (l : List Char) :
    ∃ q1 q2, l = q1 ++ stripBy p l ++ q2 ∧
      (∀ c ∈ q1, p c = true) ∧ (∀ c ∈ q2, p c = true) := by
  refine ⟨l.takeWhile p, ((l.dropWhile p).reverse.takeWhile p).reverse, ?_, ?_, ?_⟩
  · conv_lhs => rw [← List.takeWhile_append_dropWhile (p := p) (l := l)]
    rw [List.append_assoc]
    congr 1
    conv_lhs =>
      rw [← List.reverse_reverse (l.dropWhile p),
        ← List.takeWhile_append_dropWhile (p := p) (l := (l.dropWhile p).reverse),
        List.reverse_append]
    rfl
  · intro c hc
    exact List.mem_takeWhile_imp hc
  · intro c hc
    rw [List.mem_reverse] at hc
    exact List.mem_takeWhile_imp hc

/-- Characterization of a successful `clean_author_name` run. -/
theorem clean_author_name_eq_some (s n : List Char) :
    clean_author_name s = some n ↔
      s ≠ [] ∧ n = pyStrip (stripBy isQuote (pyStrip s)) ∧ n ≠ [] ∧
        isSkipName n = false := by
  unfold clean_author_name
  by_cases hs : s.isEmpty
  · simp [hs, List.isEmpty_iff.mp hs]
  · rw [if_neg (by simpa using hs)]
    have hs' : s ≠ [] := by simpa [List.isEmpty_iff] using hs
    by_cases ht : (pyStrip (stripBy isQuote (pyStrip s))).isEmpty
    · simp only [ht, if_true]
      constructor
      · intro h
        exact absurd h (by simp)
      · rintro ⟨-, rfl, hn, -⟩
        exact absurd (List.isEmpty_iff.mp ht) hn
    · rw [if_neg (by simpa using ht)]
      have ht' : pyStrip (stripBy isQuote (pyStrip s)) ≠ [] := by
        simpa [List.isEmpty_iff] using ht
      by_cases hsk : isSkipName (pyStrip (stripBy isQuote (pyStrip s)))
      · simp only [hsk, if_true]
        constructor
        · intro h
          exact absurd h (by simp)
        · rintro ⟨-, rfl, -, hn⟩
          simp [hsk] at hn
      · rw [if_neg hsk]
        constructor
        · intro h
          obtain rfl : n = pyStrip (stripBy isQuote (pyStrip s)) :=
            (Option.some.injEq _ _).mp h.symm
          exact ⟨hs', rfl, ht', Bool.eq_false_iff.mpr hsk⟩
        · rintro ⟨-, rfl, -, -⟩
          rfl

/-! ### Lemmas about the aggregate operations -/

theorem lookupA_addBook (agg : Aggregate) (n : List Char) (b : BookReference)
    (a : List Char) :
    lookupA (addBook agg n b) a =
      if a = n then
        match lookupA agg n with
        | none => some ⟨[b], 1⟩
        | some e => some ⟨e.books ++ [b], e.total_books + 1⟩
      else lookupA agg a := by
  induction agg with
  | nil =>
    by_cases h : a = n
    · subst h
      simp [addBook, lookupA]
    · simp [addBook, lookupA, h, Ne.symm h]
  | cons q t ih =>
    obtain ⟨k, e⟩ := q
    by_cases hk : k = n
    · subst hk
      by_cases ha : a = k
      · subst ha
        simp [addBook, lookupA]
      · simp [addBook, lookupA, ha, Ne.symm ha]
    · by_cases ha : k = a
      · subst ha
        simp [addBook, lookupA, hk]
      · simp [addBook, lookupA, hk, ha, ih]

theorem totalOf_addBook (agg : Aggregate) (n : List Char) (b : BookReference)
    (a : List Char) :
    totalOf (addBook agg n b) a = totalOf agg a + (if a = n then 1 else 0) := by
  unfold totalOf
  rw [lookupA_addBook]
  by_cases h : a = n
  · subst h
    cases hl : lookupA agg a <;> simp [hl]
  · simp [h]

theorem nbooksOf_addBook (agg : Aggregate) (n : List Char) (b : BookReference)
    (a : List Char) :
    nbooksOf (addBook agg n b) a = nbooksOf agg a + (if a = n then 1 else 0) := by
  unfold nbooksOf
  rw [lookupA_addBook]
  by_cases h : a = n
  · subst h
    cases hl : lookupA agg a <;> simp [hl]
  · simp [h]

theorem sumTotals_addBook (agg : Aggregate) (n : List Char) (b : BookReference) :
    sumTotals (addBook agg n b) = sumTotals agg + 1 := by
  induction agg with
  | nil => simp [addBook, sumTotals]
  | cons q t ih =>
    obtain ⟨k, e⟩ := q
    by_cases h : k = n
    · simp only [addBook, if_pos h, sumTotals, List.map_cons, List.sum_cons]
      simp only [sumTotals] at *
      omega
    · simp only [addBook, if_neg h, sumTotals, List.map_cons, List.sum_cons]
      simp only [sumTotals] at ih
      omega

/-- Every entry of `addBook agg n b` is an old entry, or an old entry (possibly
the fresh default `⟨[], 0⟩`) with `b` appended and the counter bumped. -/
theorem addBook_entry_cases (agg : Aggregate) (n : List Char) (b : BookReference)
    (p : List Char × AuthorEntry) (hp : p ∈ addBook agg n b) :
    p ∈ agg ∨
      ∃ e : AuthorEntry, p.2 = ⟨e.books ++ [b], e.total_books + 1⟩ ∧
        ((p.1, e) ∈ agg ∨ e = ⟨[], 0⟩) := by
  induction agg with
  | nil =>
    simp only [addBook, List.mem_singleton] at hp
    subst hp
    exact Or.inr ⟨⟨[], 0⟩, by simp, Or.inr rfl⟩
  | cons q t ih =>
    obtain ⟨k, e⟩ := q
    by_cases h : k = n
    · rw [addBook, if_pos h] at hp
      rcases List.mem_cons.mp hp with hp | hp
      · subst hp
        exact Or.inr ⟨e, rfl, Or.inl (List.mem_cons_self _ _)⟩
      · exact Or.inl (List.mem_cons_of_mem _ hp)
    · rw [addBook, if_neg h] at hp
      rcases List.mem_cons.mp hp with hp | hp
      · exact Or.inl (List.mem_cons.mpr (Or.inl hp))
      · rcases ih hp with h1 | ⟨e2, he2, hm⟩
        · exact Or.inl (List.mem_cons_of_mem _ h1)
        · refine Or.inr ⟨e2, he2, ?_⟩
          rcases hm with hm | hm
          · exact Or.inl (List.mem_cons_of_mem _ hm)
          · exact Or.inr hm

/-- The keys of the aggregate, in insertion order. -/
def aggKeys (agg : Aggregate) : List (List Char) := agg.map Prod.fst

theorem mem_aggKeys_addBook (agg : Aggregate) (n : List Char) (b : BookReference)
    (x : List Char) (hx : x ∈ aggKeys (addBook agg n b)) :
    x ∈ aggKeys agg ∨ x = n := by
  induction agg with
  | nil =>
    simp only [addBook, aggKeys, List.map_cons, List.map_nil,
      List.mem_singleton] at hx
    exact Or.inr hx
  | cons q t ih =>
    obtain ⟨k, e⟩ := q
    by_cases h : k = n
    · rw [addBook, if_pos h] at hx
      simp only [aggKeys, List.map_cons, List.mem_cons] at hx ⊢
      tauto
    · rw [addBook, if_neg h] at hx
      simp only [aggKeys, List.map_cons, List.mem_cons] at hx ⊢
      rcases hx with hx | hx
      · tauto
      · rcases ih hx with hm | hm <;> tauto

theorem nodup_aggKeys_addBook (agg : Aggregate) (n : List Char)
    (b : BookReference) (h : (aggKeys agg).Nodup) :
    (aggKeys (addBook agg n b)).Nodup := by
  induction agg with
  | nil => simp [addBook, aggKeys]
  | cons q t ih =>
    obtain ⟨k, e⟩ := q
    simp only [aggKeys, List.map_cons, List.nodup_cons] at h
    obtain ⟨hk, ht⟩ := h
    by_cases hkn : k = n
    · rw [addBook, if_pos hkn]
      simp only [aggKeys, List.map_cons, List.nodup_cons]
      exact ⟨hk, ht⟩
    · rw [addBook, if_neg hkn]
      simp only [aggKeys, List.map_cons, List.nodup_cons]
      refine ⟨?_, ih ht⟩
      intro hmem
      rcases mem_aggKeys_addBook t n b k hmem with hm | hm
      · exact hk hm
      · exact hkn hm

/-! ### Per-record counting lemmas -/

theorem totalOf_foldAdd (r : Record) (ns : List (List Char)) (acc : Aggregate)
    (a : List Char) :
    totalOf (ns.foldl (addAdditional r) acc) a =
      totalOf acc a + (ns.filterMap clean_author_name).count a := by
  induction ns generalizing acc with
  | nil => simp
  | cons m rest ih =>
    simp only [List.foldl_cons, List.filterMap_cons]
    cases hm : clean_author_name m with
    | none => simp only [addAdditional, hm, ih]
    | some nm =>
      simp only [addAdditional, hm, ih, totalOf_addBook, List.count_cons]
      by_cases h : a = nm
      · subst h
        simp
        omega
      · have h2 : ¬ nm = a := fun hh => h hh.symm
        simp [h, h2]

theorem nbooksOf_foldAdd (r : Record) (ns : List (List Char)) (acc : Aggregate)
    (a : List Char) :
    nbooksOf (ns.foldl (addAdditional r) acc) a =
      nbooksOf acc a + (ns.filterMap clean_author_name).count a := by
  induction ns generalizing acc with
  | nil => simp
  | cons m rest ih =>
    simp only [List.foldl_cons, List.filterMap_cons]
    cases hm : clean_author_name m with
    | none => simp only [addAdditional, hm, ih]
    | some nm =>
      simp only [addAdditional, hm, ih, nbooksOf_addBook, List.count_cons]
      by_cases h : a = nm
      · subst h
        simp
        omega
      · have h2 : ¬ nm = a := fun hh => h hh.symm
        simp [h, h2]

theorem sumTotals_foldAdd (r : Record) (ns : List (List Char)) (acc : Aggregate) :
    sumTotals (ns.foldl (addAdditional r) acc) =
      sumTotals acc + (ns.filterMap clean_author_name).length := by
  induction ns generalizing acc with
  | nil => simp
  | cons m rest ih =>
    simp only [List.foldl_cons, List.filterMap_cons]
    cases hm : clean_author_name m with
    | none => simp only [addAdditional, hm, ih]
    | some nm =>
      simp only [addAdditional, hm, ih, sumTotals_addBook, List.length_cons]
      omega

theorem count_singleton_eq (a b : List Char) :
    List.count a [b] = if a = b then 1 else 0 := by
  by_cases h : a = b
  · subst h
    simp
  · have h2 : ¬ b = a := fun hh => h hh.symm
    simp [h, h2]

theorem totalOf_processRecord (agg : Aggregate) (r : Record) (a : List Char) :
    totalOf (processRecord agg r) a = totalOf agg a + (validNames r).count a := by
  unfold processRecord validNames
  cases hp : clean_author_name (rowAuthorRaw r) with
  | none =>
    by_cases he : (rowAdditional r).isEmpty
    · simp [he]
    · simp [he, totalOf_foldAdd]
  | some a0 =>
    by_cases he : (rowAdditional r).isEmpty
    · simp only [he, if_true, totalOf_addBook, List.append_nil]
      rw [count_singleton_eq]
    · simp only [he, if_false, Bool.false_eq_true, totalOf_foldAdd,
        totalOf_addBook, List.count_append, count_singleton_eq]
      omega

theorem nbooksOf_processRecord (agg : Aggregate) (r : Record) (a : List Char) :
    nbooksOf (processRecord agg r) a = nbooksOf agg a + (validNames r).count a := by
  unfold processRecord validNames
  cases hp : clean_author_name (rowAuthorRaw r) with
  | none =>
    by_cases he : (rowAdditional r).isEmpty
    · simp [he]
    · simp [he, nbooksOf_foldAdd]
  | some a0 =>
    by_cases he : (rowAdditional r).isEmpty
    · simp only [he, if_true, nbooksOf_addBook, List.append_nil]
      rw [count_singleton_eq]
    · simp only [he, if_false, Bool.false_eq_true, nbooksOf_foldAdd,
        nbooksOf_addBook, List.count_append, count_singleton_eq]
      omega

theorem sumTotals_processRecord (agg : Aggregate) (r : Record) :
    sumTotals (processRecord agg r) = sumTotals agg + (validNames r).length := by
  unfold processRecord validNames
  cases hp : clean_author_name (rowAuthorRaw r) with
  | none =>
    by_cases he : (rowAdditional r).isEmpty
    · simp [he]
    · simp [he, sumTotals_foldAdd]
  | some a0 =>
    by_cases he : (rowAdditional r).isEmpty
    · simp [he, sumTotals_addBook]
    · simp [he, sumTotals_foldAdd, sumTotals_addBook]
      omega

theorem sumTotals_foldl_rows (rows : List Record) (acc : Aggregate) :
    sumTotals (rows.foldl processRecord acc) =
      sumTotals acc + (rows.map (fun r => (validNames r).length)).sum := by
  induction rows generalizing acc with
  | nil => simp
  | cons r rest ih =>
    simp only [List.foldl_cons, List.map_cons, List.sum_cons, ih,
      sumTotals_processRecord]
    omega

/-! ### Invariant preservation through aggregation -/

/-- Counter/length agreement for every entry. -/
def entriesWF (agg : Aggregate) : Prop :=
  ∀ p ∈ agg, p.2.total_books = p.2.books.length

theorem entriesWF_addBook (agg : Aggregate) (n : List Char) (b : BookReference)
    (h : entriesWF agg) : entriesWF (addBook agg n b) := by
  intro p hp
  rcases addBook_entry_cases agg n b p hp with hm | ⟨e, he, hm⟩
  · exact h p hm
  · rcases hm with hm | hm
    · have he2 := h (p.1, e) hm
      simp only at he2
      rw [he]
      simp only [List.length_append, List.length_singleton]
      omega
    · subst hm
      rw [he]
      simp

theorem entriesWF_foldAdd (r : Record) (ns : List (List Char)) (acc : Aggregate)
    (h : entriesWF acc) : entriesWF (ns.foldl (addAdditional r) acc) := by
  induction ns generalizing acc with
  | nil => exact h
  | cons m rest ih =>
    refine ih _ ?_
    unfold addAdditional
    cases clean_author_name m with
    | none => exact h
    | some nm => exact entriesWF_addBook _ _ _ h

theorem entriesWF_processRecord (agg : Aggregate) (r : Record)
    (h : entriesWF agg) : entriesWF (processRecord agg r) := by
  unfold processRecord
  have h1 : entriesWF (match clean_author_name (rowAuthorRaw r) with
      | some a => addBook agg a (mkBook r none)
      | none => agg) := by
    cases clean_author_name (rowAuthorRaw r) with
    | none => exact h
    | some a => exact entriesWF_addBook _ _ _ h
  by_cases he : (rowAdditional r).isEmpty
  · simpa [he] using h1
  · simp only [he, Bool.false_eq_true, if_false]
    exact entriesWF_foldAdd _ _ _ h1

theorem entriesWF_extract (rows : List Record) :
    entriesWF (extract_authors_from_goodreads rows) := by
  unfold extract_authors_from_goodreads
  have key : ∀ (l : List Record) (acc : Aggregate), entriesWF acc →
      entriesWF (l.foldl processRecord acc) := by
    intro l
    induction l with
    | nil => exact fun acc h => h
    | cons r rest ih =>
      intro acc h
      exact ih _ (entriesWF_processRecord acc r h)
  exact key rows [] (by intro p hp; simp at hp)

/-- Every entry carries at least one attribution. -/
def entriesPos (agg : Aggregate) : Prop :=
  ∀ p ∈ agg, 1 ≤ p.2.total_books ∧ p.2.books ≠ []

theorem entriesPos_addBook (agg : Aggregate) (n : List Char) (b : BookReference)
    (h : entriesPos agg) : entriesPos (addBook agg n b) := by
  intro p hp
  rcases addBook_entry_cases agg n b p hp with hm | ⟨e, he, -⟩
  · exact h p hm
  · rw [he]
    simp

theorem entriesPos_foldAdd (r : Record) (ns : List (List Char)) (acc : Aggregate)
    (h : entriesPos acc) : entriesPos (ns.foldl (addAdditional r) acc) := by
  induction ns generalizing acc with
  | nil => exact h
  | cons m rest ih =>
    refine ih _ ?_
    unfold addAdditional
    cases clean_author_name m with
    | none => exact h
    | some nm => exact entriesPos_addBook _ _ _ h

theorem entriesPos_processRecord (agg : Aggregate) (r : Record)
    (h : entriesPos agg) : entriesPos (processRecord agg r) := by
  unfold processRecord
  have h1 : entriesPos (match clean_author_name (rowAuthorRaw r) with
      | some a => addBook agg a (mkBook r none)
      | none => agg) := by
    cases clean_author_name (rowAuthorRaw r) with
    | none => exact h
    | some a => exact entriesPos_addBook _ _ _ h
  by_cases he : (rowAdditional r).isEmpty
  · simpa [he] using h1
  · simp only [he, Bool.false_eq_true, if_false]
    exact entriesPos_foldAdd _ _ _ h1

theorem entriesPos_extract (rows : List Record) :
    entriesPos (extract_authors_from_goodreads rows) := by
  unfold extract_authors_from_goodreads
  have key : ∀ (l : List Record) (acc : Aggregate), entriesPos acc →
      entriesPos (l.foldl processRecord acc) := by
    intro l
    induction l with
    | nil => exact fun acc h => h
    | cons r rest ih =>
      intro acc h
      exact ih _ (entriesPos_processRecord acc r h)
  exact key rows [] (by intro p hp; simp at hp)

/-- Every stored book's ISBN comes from the ISBN pipeline of some row of
`rows`. -/
def isbnsFrom (rows : List Record) (agg : Aggregate) : Prop :=
  ∀ p ∈ agg, ∀ bk ∈ p.2.books, ∃ r, r ∈ rows ∧ bk.isbn = rowIsbn r

theorem isbnsFrom_addBook (rows : List Record) (agg : Aggregate) (n : List Char)
    (b : BookReference) (h : isbnsFrom rows agg)
    (hb : ∃ r, r ∈ rows ∧ b.isbn = rowIsbn r) :
    isbnsFrom rows (addBook agg n b) := by
  intro p hp bk hbk
  rcases addBook_entry_cases agg n b p hp with hm | ⟨e, he, hm⟩
  · exact h p hm bk hbk
  · rw [he] at hbk
    simp only [List.mem_append, List.mem_singleton] at hbk
    rcases hbk with hbk | hbk
    · rcases hm with hm | hm
      · exact h (p.1, e) hm bk hbk
      · subst hm
        simp at hbk
    · subst hbk
      exact hb

theorem isbnsFrom_foldAdd (rows : List Record) (r : Record)
    (ns : List (List Char)) (acc : Aggregate) (h : isbnsFrom rows acc)
    (hr : r ∈ rows) : isbnsFrom rows (ns.foldl (addAdditional r) acc) := by
  induction ns generalizing acc with
  | nil => exact h
  | cons m rest ih =>
    refine ih _ ?_
    unfold addAdditional
    cases clean_author_name m with
    | none => exact h
    | some nm => exact isbnsFrom_addBook rows _ _ _ h ⟨r, hr, rfl⟩

theorem isbnsFrom_processRecord (rows : List Record) (agg : Aggregate)
    (r : Record) (h : isbnsFrom rows agg) (hr : r ∈ rows) :
    isbnsFrom rows (processRecord agg r) := by
  unfold processRecord
  have h1 : isbnsFrom rows (match clean_author_name (rowAuthorRaw r) with
      | some a => addBook agg a (mkBook r none)
      | none => agg) := by
    cases clean_author_name (rowAuthorRaw r) with
    | none => exact h
    | some a => exact isbnsFrom_addBook rows _ _ _ h ⟨r, hr, rfl⟩
  by_cases he : (rowAdditional r).isEmpty
  · simpa [he] using h1
  · simp only [he, Bool.false_eq_true, if_false]
    exact isbnsFrom_foldAdd rows r _ _ h1 hr

theorem isbnsFrom_extract (rows : List Record) :
    isbnsFrom rows (extract_authors_from_goodreads rows) := by
  unfold extract_authors_from_goodreads
  have key : ∀ (l : List Record) (acc : Aggregate), isbnsFrom rows acc →
      (∀ r ∈ l, r ∈ rows) → isbnsFrom rows (l.foldl processRecord acc) := by
    intro l
    induction l with
    | nil => exact fun acc h _ => h
    | cons r rest ih =>
      intro acc h hsub
      refine ih _ ?_ ?_
      · exact isbnsFrom_processRecord rows acc r h (hsub r (List.mem_cons_self _ _))
      · exact fun x hx => hsub x (List.mem_cons_of_mem _ hx)
  refine key rows [] ?_ (fun x hx => hx)
  intro p hp
  simp at hp

theorem nodup_aggKeys_foldAdd (r : Record) (ns : List (List Char))
    (acc : Aggregate) (h : (aggKeys acc).Nodup) :
    (aggKeys (ns.foldl (addAdditional r) acc)).Nodup := by
  induction ns generalizing acc with
  | nil => exact h
  | cons m rest ih =>
    refine ih _ ?_
    unfold addAdditional
    cases clean_author_name m with
    | none => exact h
    | some nm => exact nodup_aggKeys_addBook _ _ _ h

theorem nodup_aggKeys_processRecord (agg : Aggregate) (r : Record)
    (h : (aggKeys agg).Nodup) : (aggKeys (processRecord agg r)).Nodup := by
  unfold processRecord
  have h1 : (aggKeys (match clean_author_name (rowAuthorRaw r) with
      | some a => addBook agg a (mkBook r none)
      | none => agg)).Nodup := by
    cases clean_author_name (rowAuthorRaw r) with
    | none => exact h
    | some a => exact nodup_aggKeys_addBook _ _ _ h
  by_cases he : (rowAdditional r).isEmpty
  · simpa [he] using h1
  · simp only [he, Bool.false_eq_true, if_false]
    exact nodup_aggKeys_foldAdd _ _ _ h1

theorem nodup_aggKeys_extract (rows : List Record) :
    (aggKeys (extract_authors_from_goodreads rows)).Nodup := by
  unfold extract_authors_from_goodreads
  have key : ∀ (l : List Record) (acc : Aggregate), (aggKeys acc).Nodup →
      (aggKeys (l.foldl processRecord acc)).Nodup := by
    intro l
    induction l with
    | nil => exact fun acc h => h
    | cons r rest ih =>
      intro acc h
      exact ih _ (nodup_aggKeys_processRecord acc r h)
  exact key rows [] (by simp [aggKeys])

/-! ### Lemmas about the descending sort -/

theorem mem_insDesc (p : List Char × AuthorEntry) (l : Aggregate)
    (x : List Char × AuthorEntry) : x ∈ insDesc p l ↔ x = p ∨ x ∈ l := by
  induction l with
  | nil => simp [insDesc]
  | cons q t ih =>
    by_cases h : q.2.total_books ≤ p.2.total_books
    · simp only [insDesc, if_pos h, List.mem_cons]
    · simp only [insDesc, if_neg h, List.mem_cons, ih]
      tauto

theorem mem_sortByBooksDesc (l : Aggregate) (x : List Char × AuthorEntry) :
    x ∈ sortByBooksDesc l ↔ x ∈ l := by
  induction l with
  | nil => simp [sortByBooksDesc]
  | cons p t ih =>
    simp [sortByBooksDesc, mem_insDesc, ih]

theorem pairwise_insDesc (p : List Char × AuthorEntry) (l : Aggregate)
    (h : l.Pairwise (fun x y => y.2.total_books ≤ x.2.total_books)) :
    (insDesc p l).Pairwise (fun x y => y.2.total_books ≤ x.2.total_books) := by
  induction l with
  | nil => simp [insDesc]
  | cons q t ih =>
    rcases List.pairwise_cons.mp h with ⟨hq, ht⟩
    by_cases hc : q.2.total_books ≤ p.2.total_books
    · rw [insDesc, if_pos hc]
      refine List.pairwise_cons.mpr ⟨?_, h⟩
      intro x hx
      rcases List.mem_cons.mp hx with rfl | hm
      · exact hc
      · exact le_trans (hq x hm) hc
    · rw [insDesc, if_neg hc]
      refine List.pairwise_cons.mpr ⟨?_, ih ht⟩
      intro x hx
      rcases (mem_insDesc p t x).mp hx with rfl | hm
      · omega
      · exact hq x hm

theorem pairwise_sortByBooksDesc (l : Aggregate) :
    (sortByBooksDesc l).Pairwise (fun x y => y.2.total_books ≤ x.2.total_books) := by
  induction l with
  | nil => simp [sortByBooksDesc]
  | cons p t ih => exact pairwise_insDesc p _ ih

theorem sumTotals_insDesc (p : List Char × AuthorEntry) (l : Aggregate) :
    sumTotals (insDesc p l) = p.2.total_books + sumTotals l := by
  induction l with
  | nil => simp [insDesc, sumTotals]
  | cons q t ih =>
    by_cases h : q.2.total_books ≤ p.2.total_books
    · simp [insDesc, h, sumTotals]
    · simp only [insDesc, if_neg h, sumTotals, List.map_cons, List.sum_cons]
      simp only [sumTotals] at ih
      omega

theorem sumTotals_sortByBooksDesc (l : Aggregate) :
    sumTotals (sortByBooksDesc l) = sumTotals l := by
  induction l with
  | nil => rfl
  | cons p t ih =>
    show sumTotals (insDesc p (sortByBooksDesc t)) = sumTotals (p :: t)
    rw [sumTotals_insDesc, ih]
    simp [sumTotals]

theorem length_insDesc (p : List Char × AuthorEntry) (l : Aggregate) :
    (insDesc p l).length = l.length + 1 := by
  induction l with
  | nil => rfl
  | cons q t ih =>
    by_cases h : q.2.total_books ≤ p.2.total_books
    · simp [insDesc, h]
    · simp [insDesc, h, ih]

theorem length_sortByBooksDesc (l : Aggregate) :
    (sortByBooksDesc l).length = l.length := by
  induction l with
  | nil => rfl
  | cons p t ih =>
    simp [sortByBooksDesc, length_insDesc, ih]

/-! ### Concrete rows used by counterexamples and witnesses -/

/-- A plain row: title `T`, author `A`, nothing else. -/
def rowA : Record :=
  ⟨some (chars "T"), some (chars "A"), none, none, none, none⟩

/-- A row naming the same person as primary author and as additional author. -/
def rowDup : Record :=
  ⟨some (chars "T"), some (chars "Jane Doe"), some (chars "Jane Doe"),
   none, none, none⟩

/-- A row whose ISBN13 field has the Excel-style formatting found in
Goodreads exports. -/
def rowExcel : Record :=
  ⟨some (chars "T"), some (chars "A"), none, some (chars "=\"123\""),
   none, none⟩

/-- Fifteen copies of the plain row, all attributed to author `A`. -/
def rows15 : List Record := List.replicate 15 rowA

/-! ### Claim theorems -/

/-- Claim C1, counterexample: the record whose primary author and (sole)
additional author both normalize to `Jane Doe` gives that single author TWO
`BookReference`s and two count increments, so a single record can contribute
more than one `BookReference` to the same `AuthorEntry`. -/
theorem C1_counterexample :
    totalOf (extract_authors_from_goodreads [rowDup]) (chars "Jane Doe") = 2 ∧
    nbooksOf (extract_authors_from_goodreads [rowDup]) (chars "Jane Doe") = 2 := by
  decide

/-- Claim C1, amended: processing one record appends exactly one
`BookReference` and performs exactly one count increment per valid author
OCCURRENCE (the valid primary author plus each valid additional-author
occurrence, with multiplicity): for every author key the counter and the book
list grow by the number of occurrences of that key among the record's valid
attributions — so a name occurring twice (for example both as primary and as
additional author) receives two, not one. -/
theorem C1_per_occurrence (agg : Aggregate) (r : Record) (a : List Char) :
    totalOf (processRecord agg r) a = totalOf agg a + (validNames r).count a ∧
    nbooksOf (processRecord agg r) a = nbooksOf agg a + (validNames r).count a :=
  ⟨totalOf_processRecord agg r a, nbooksOf_processRecord agg r a⟩

/-- Claim C2: in the aggregate built from any row list — hence at every
intermediate point of the aggregation, since the state after a prefix of the
input IS the aggregate of that prefix — every author entry's `total_books`
equals the length of its `books` sequence. -/
theorem C2_total_eq_length (rows : List Record)
    (p : List Char × AuthorEntry)
    (hp : p ∈ extract_authors_from_goodreads rows) :
    p.2.total_books = p.2.books.length :=
  entriesWF_extract rows p hp

theorem C2_total_eq_length_witness :
    ((chars "A", AuthorEntry.mk [mkBook rowA none] 1) :
      List Char × AuthorEntry).2.total_books =
    ((chars "A", AuthorEntry.mk [mkBook rowA none] 1) :
      List Char × AuthorEntry).2.books.length :=
  C2_total_eq_length [rowA] (chars "A", AuthorEntry.mk [mkBook rowA none] 1)
    (by decide)

/-- Claim C3: the sum of `total_books` over the aggregate of any processed
row list equals the number of (record, valid-author-attribution) pairs in it
(each record contributing `(validNames r).length` attributions), the sum is
monotonically non-decreasing as further records are processed, the detailed
view's metadata `total_books` equals this sum, and metadata `total_authors`
is the number of author keys, which are distinct. -/
theorem C3_sum_invariant (rows more : List Record) :
    sumTotals (extract_authors_from_goodreads rows) =
      (rows.map (fun r => (validNames r).length)).sum ∧
    sumTotals (extract_authors_from_goodreads rows) ≤
      sumTotals (extract_authors_from_goodreads (rows ++ more)) ∧
    (create_cache_warming_format
        (extract_authors_from_goodreads rows)).metadata.total_books =
      sumTotals (extract_authors_from_goodreads rows) ∧
    (create_cache_warming_format
        (extract_authors_from_goodreads rows)).metadata.total_authors =
      (extract_authors_from_goodreads rows).length ∧
    (aggKeys (extract_authors_from_goodreads rows)).Nodup := by
  refine ⟨?_, ?_, ?_, ?_, nodup_aggKeys_extract rows⟩
  · unfold extract_authors_from_goodreads
    have h0 := sumTotals_foldl_rows rows []
    simpa [sumTotals] using h0
  · unfold extract_authors_from_goodreads
    rw [List.foldl_append]
    rw [sumTotals_foldl_rows more (rows.foldl processRecord [])]
    omega
  · exact sumTotals_sortByBooksDesc _
  · exact length_sortByBooksDesc _

/-- Claim C4: `clean_author_name` returns the no-valid-name result exactly
when the cleaned string (whitespace-trimmed, quote-stripped, re-trimmed) is
empty or matches a skip-list entry case-insensitively as a whole string; in
particular `Various`, `UNKNOWN`, ` Anonymous `, `Editor` and `Translator` are
all rejected while `Editor Smith` is returned unchanged. -/
theorem C4_skip_iff :
    (∀ s : List Char,
      clean_author_name s = none ↔
        (pyStrip (stripBy isQuote (pyStrip s)) = [] ∨
         isSkipName (pyStrip (stripBy isQuote (pyStrip s))) = true)) ∧
    clean_author_name (chars "Various") = none ∧
    clean_author_name (chars "UNKNOWN") = none ∧
    clean_author_name (chars " Anonymous ") = none ∧
    clean_author_name (chars "Editor") = none ∧
    clean_author_name (chars "Translator") = none ∧
    clean_author_name (chars "Editor Smith") = some (chars "Editor Smith") := by
  refine ⟨?_, by decide, by decide, by decide, by decide, by decide, by decide⟩
  intro s
  unfold clean_author_name
  by_cases hs : s.isEmpty
  · obtain rfl := List.isEmpty_iff.mp hs
    decide
  · rw [if_neg (by simpa using hs)]
    by_cases ht : (pyStrip (stripBy isQuote (pyStrip s))).isEmpty
    · simp [ht, List.isEmpty_iff.mp ht]
    · have ht2 : pyStrip (stripBy isQuote (pyStrip s)) ≠ [] := by
        simpa [List.isEmpty_iff] using ht
      by_cases hsk : isSkipName (pyStrip (stripBy isQuote (pyStrip s)))
      · simp [ht, hsk]
      · simp [ht, ht2, hsk]

/-- Claim C5, counterexample: normalization is not idempotent. The input
consisting of a quote, a space, a quote and `x` cleans to the valid name
quote-`x`, but cleaning that name again removes its leading quote (exposed by
the second whitespace trim) and yields plain `x`. -/
theorem C5_counterexample :
    clean_author_name (chars "\" \"x") = some (chars "\"x") ∧
    clean_author_name (chars "\"x") = some (chars "x") ∧
    chars "\"x" ≠ chars "x" := by
  decide

/-- Claim C5, amended: normalization is idempotent on every valid result that
does not begin or end with a double-quote character (the second whitespace
trim can expose such boundary quotes, and only those break idempotence):
if `clean_author_name s` returns a valid name `n` whose first and last
characters are not quotes, then cleaning `n` returns `n` unchanged. -/
theorem C5_idempotent_no_boundary_quote (s n : List Char)
    (h : clean_author_name s = some n)
    (h1 : n.head? ≠ some '"')
    (h2 : n.getLast? ≠ some '"') :
    clean_author_name n = some n := by
  obtain ⟨-, hn, hne, hnsk⟩ := (clean_author_name_eq_some s n).mp h
  have hps : pyStrip n = n := by
    rw [hn]
    exact stripBy_idem _ _
  have hq : stripBy isQuote n = n := by
    refine stripBy_eq_self _ _ ?_ ?_
    · intro c hc
      have : c ≠ '"' := fun hcq => h1 (hcq ▸ hc)
      simp [isQuote, this]
    · intro c hc
      have : c ≠ '"' := fun hcq => h2 (hcq ▸ hc)
      simp [isQuote, this]
  refine (clean_author_name_eq_some n n).mpr ⟨hne, ?_, hne, hnsk⟩
  rw [hps, hq, hps]

theorem C5_idempotent_witness :
    clean_author_name (chars "Jane") = some (chars "Jane") :=
  C5_idempotent_no_boundary_quote (chars " Jane ") (chars "Jane")
    (by decide) (by decide) (by decide)

/-- Claim C6, counterexample: quote stripping is not limited to one layer.
The input `""Foo""` (two layers of quotes) cleans to `Foo`, not to the
one-layer result `"Foo"`, so surrounding quotes beyond the first layer are
NOT preserved. -/
theorem C6_counterexample :
    clean_author_name (chars "\"\"Foo\"\"") = some (chars "Foo") ∧
    chars "Foo" ≠ chars "\"Foo\"" := by
  decide

/-- Claim C6, amended: after the initial whitespace trim, step 2 removes the
MAXIMAL runs of leading and trailing double-quote characters (every layer,
not just one): the trimmed string decomposes as quote-run ++ kept-core ++
quote-run where the kept core neither begins nor ends with a quote, and
`clean_author_name` then re-trims whitespace on the core (which may expose
interior quotes, which are preserved) and applies the empty/skip tests. -/
theorem C6_quote_strip_maximal (s : List Char) :
    (∃ q1 q2, pyStrip s = q1 ++ (stripBy isQuote (pyStrip s) ++ q2) ∧
      (∀ c ∈ q1, c = '"') ∧ (∀ c ∈ q2, c = '"')) ∧
    (stripBy isQuote (pyStrip s)).head? ≠ some '"' ∧
    (stripBy isQuote (pyStrip s)).getLast? ≠ some '"' ∧
    clean_author_name s =
      (if (pyStrip (stripBy isQuote (pyStrip s))).isEmpty then none
       else if isSkipName (pyStrip (stripBy isQuote (pyStrip s))) then none
       else some (pyStrip (stripBy isQuote (pyStrip s)))) := by
  refine ⟨?_, ?_, ?_, ?_⟩
  · obtain ⟨q1, q2, hdec, hq1, hq2⟩ := stripBy_decomp isQuote (pyStrip s)
    refine ⟨q1, q2, by rw [← List.append_assoc]; exact hdec, ?_, ?_⟩
    · intro c hc
      have := hq1 c hc
      simpa [isQuote] using this
    · intro c hc
      have := hq2 c hc
      simpa [isQuote] using this
  · intro hh
    have := head?_stripBy isQuote (pyStrip s) _ hh
    simp [isQuote] at this
  · intro hh
    have := getLast?_stripBy isQuote (pyStrip s) _ hh
    simp [isQuote] at this
  · unfold clean_author_name
    by_cases hs : s.isEmpty
    · obtain rfl := List.isEmpty_iff.mp hs
      decide
    · rw [if_neg (by simpa using hs)]

/-- Claim C7, counterexample: an ISBN13 in Excel-style `="..."` formatting is
NOT stored as the bare inner value: the quote stripping runs before the
equals stripping, so the leading quote (shielded by the `=`) survives and the
stored value is quote-`123`, not `123`. -/
theorem C7_counterexample :
    (lookupA (extract_authors_from_goodreads [rowExcel]) (chars "A")).elim []
        (fun e => e.books.map (fun b => b.isbn)) = [chars "\"123"] ∧
    chars "\"123" ≠ chars "123" := by
  decide

/-- Claim C7, amended: every stored `BookReference` carries as ISBN the value
of some input row's ISBN13 field passed through the pipeline
whitespace-trim, then surrounding-quote strip, then surrounding-equals strip
(in that order — so the `="..."` form keeps the leading quote, as the
counterexample shows, and nothing is thrown). -/
theorem C7_isbn_pipeline (rows : List Record) (p : List Char × AuthorEntry)
    (bk : BookReference) (hp : p ∈ extract_authors_from_goodreads rows)
    (hbk : bk ∈ p.2.books) :
    ∃ r, r ∈ rows ∧ bk.isbn = rowIsbn r :=
  isbnsFrom_extract rows p hp bk hbk

theorem C7_isbn_pipeline_witness :
    ∃ r, r ∈ [rowExcel] ∧ (mkBook rowExcel none).isbn = rowIsbn r :=
  C7_isbn_pipeline [rowExcel]
    (chars "A", AuthorEntry.mk [mkBook rowExcel none] 1)
    (mkBook rowExcel none) (by decide) (by decide)

/-- Claim C8: all three output views rank identically by `total_books`
descending: the detailed view's authors are pairwise sorted by descending
`book_count`, the simple list is exactly the detailed view's `name` column in
the same order, and the tabular rows are exactly its `(name, book_count)`
column pairs in the same order — so any author with a strictly larger count
appears before a smaller one in every view. -/
theorem C8_views_agree (agg : Aggregate) :
    ((create_cache_warming_format agg).authors).Pairwise
      (fun x y => y.book_count ≤ x.book_count) ∧
    create_simple_author_list agg =
      (create_cache_warming_format agg).authors.map (fun a => a.name) ∧
    tabular_rows agg =
      (create_cache_warming_format agg).authors.map
        (fun a => (a.name, a.book_count)) := by
  refine ⟨?_, ?_, ?_⟩
  · have hp := pairwise_sortByBooksDesc agg
    unfold create_cache_warming_format
    simp only [List.pairwise_map]
    exact hp
  · unfold create_simple_author_list create_cache_warming_format
    simp [List.map_map, Function.comp]
  · unfold tabular_rows create_cache_warming_format
    simp [List.map_map, Function.comp]

/-- Claim C9: every author object of the detailed view comes from an
aggregate entry, keeping its name, reporting the FULL `total_books` as
`book_count`, and listing as `books` the first (at most) 10 stored
`BookReference`s in their original append order. -/
theorem C9_truncation (agg : Aggregate) (a : AuthorOut)
    (ha : a ∈ (create_cache_warming_format agg).authors) :
    ∃ p, p ∈ agg ∧ a.name = p.1 ∧ a.book_count = p.2.total_books ∧
      a.books = p.2.books.take 10 := by
  unfold create_cache_warming_format at ha
  simp only [List.mem_map] at ha
  obtain ⟨p, hp, rfl⟩ := ha
  exact ⟨p, (mem_sortByBooksDesc agg p).mp hp, rfl, rfl, rfl⟩

theorem C9_truncation_witness :
    ((create_cache_warming_format (extract_authors_from_goodreads rows15)).authors.map
      (fun a => (a.book_count, a.books.length)) = [(15, 10)]) ∧
    (∃ p, p ∈ extract_authors_from_goodreads rows15 ∧
      (AuthorOut.mk (chars "A") 15
          (List.replicate 10 (mkBook rowA none))).name = p.1 ∧
      (AuthorOut.mk (chars "A") 15
          (List.replicate 10 (mkBook rowA none))).book_count = p.2.total_books ∧
      (AuthorOut.mk (chars "A") 15
          (List.replicate 10 (mkBook rowA none))).books = p.2.books.take 10) :=
  ⟨by decide,
   C9_truncation (extract_authors_from_goodreads rows15)
     (AuthorOut.mk (chars "A") 15 (List.replicate 10 (mkBook rowA none)))
     (by decide)⟩

/-- Claim C10: every author key present in the aggregate has at least one
stored book and a counter of at least 1 — the default-valued entry is only
materialized at the moment a `BookReference` is appended, so no zero-count
entries exist. -/
theorem C10_no_empty_entries (rows : List Record)
    (p : List Char × AuthorEntry)
    (hp : p ∈ extract_authors_from_goodreads rows) :
    1 ≤ p.2.total_books ∧ p.2.books ≠ [] :=
  entriesPos_extract rows p hp

theorem C10_no_empty_entries_witness :
    1 ≤ ((chars "A", AuthorEntry.mk [mkBook rowA none] 1) :
        List Char × AuthorEntry).2.total_books ∧
    ((chars "A", AuthorEntry.mk [mkBook rowA none] 1) :
        List Char × AuthorEntry).2.books ≠ [] :=
  C10_no_empty_entries [rowA] (chars "A", AuthorEntry.mk [mkBook rowA none] 1)
    (by decide)

end Goodreads
